import Mathlib

/-!
Verification of the core transcript / summarization / routing logic of the
local-transcriber repository.

Strings are modelled as `List Char`.  Each definition mirrors one function of
`src/recognizer.tsx` or the routing effect of `src/microphone.tsx`; JavaScript
`null`/`undefined`-able fields are modelled with `Option`, JS truthiness of a
string is non-emptiness, JS truthiness of a number excludes `0`.
-/

namespace LocalTranscriber

abbrev Str := List Char

/-- Whitespace characters matched by the JS regex class and removed by
`String.prototype.trim` (ASCII portion, the only ones reachable here). -/
def isWs (c : Char) : Bool :=
  c == ' ' || c == '\t' || c == '\n' || c == '\r' || c == '\x0b' || c == '\x0c'

/-- JS `String.prototype.trim`: strip whitespace from both ends. -/
def trim (s : Str) : Str :=
  ((s.dropWhile isWs).reverse.dropWhile isWs).reverse

/-- Join a list of strings with a single space (JS `Array.prototype.join(" ")`). -/
def joinSpace (l : List Str) : Str :=
  List.intercalate [' '] l

/-! Section: Data model: Vosk results (`recognizer.tsx`, interface `VoskResult`) -/

/-- One word entry of a Vosk result; `word = none` models a null/missing
`word` field. -/
structure VoskWord where
  word : Option Str
deriving DecidableEq, Repr

/-- One finalized utterance.  `result = none` models a missing or non-array
`result` field (`!utt.result || !Array.isArray(utt.result)`); list entries that
are `none` model null words in the array. -/
structure VoskResult where
  result : Option (List (Option VoskWord))
deriving DecidableEq, Repr

/-- A possibly-null entry of the `utterances` state array. -/
abbrev UttEntry := Option VoskResult

/-- The expression `word?.word || ""` of `getFullTranscript`: a null entry or a null/empty
`word` field contributes the empty string. -/
def wordText (w : Option VoskWord) : Str :=
  match w with
  | none => []
  | some v => v.word.getD []

/-- The per-utterance text of `getFullTranscript`:
`utt.result.map(w => w?.word || "").filter(Boolean).join(" ")`, with the
null/missing/non-array guards returning `""`. -/
def uttText (u : UttEntry) : Str :=
  match u with
  | none => []
  | some r =>
    match r.result with
    | none => []
    | some ws => joinSpace ((ws.map wordText).filter (fun s => !s.isEmpty))

/-- Function `getFullTranscript` (`recognizer.tsx` lines 154-171). -/
def getFullTranscript (utts : List UttEntry) : Str :=
  if utts.isEmpty then []
  else joinSpace ((utts.map uttText).filter (fun s => !s.isEmpty))

/-! Reference definition for claim C1, following the spec's words: for each
utterance take its non-null non-empty words, join them with one space, drop
utterances contributing no words, join the rest with one space. -/

/-- The non-null, non-empty words of one utterance entry (spec's reference
reading for C1). -/
def specUttWords (u : UttEntry) : List Str :=
  match u with
  | none => []
  | some r =>
    match r.result with
    | none => []
    | some ws => ((ws.filterMap id).filterMap VoskWord.word).filter (fun s => !s.isEmpty)

/-- Reference full-text projection for claim C1, built from the spec sentence
rather than from the code. -/
def fullTranscriptSpec (utts : List UttEntry) : Str :=
  joinSpace ((utts.map (fun u => joinSpace (specUttWords u))).filter (fun s => !s.isEmpty))

lemma wordText_filter_eq (ws : List (Option VoskWord)) :
    (ws.map wordText).filter (fun s => !s.isEmpty) =
      (((ws.filterMap id).filterMap VoskWord.word).filter (fun s => !s.isEmpty)) := by
  induction ws with
  | nil => rfl
  | cons w rest ih =>
    cases w with
    | none => simpa [wordText] using ih
    | some v =>
      cases hv : v.word with
      | none => simpa [wordText, hv] using ih
      | some s =>
        by_cases hs : s.isEmpty
        · simp [wordText, hv, hs, ih]
        · simp [wordText, hv, hs, ih]

lemma uttText_eq_spec (u : UttEntry) : uttText u = joinSpace (specUttWords u) := by
  cases u with
  | none => rfl
  | some r =>
    cases hr : r.result with
    | none => simp [uttText, specUttWords, hr, joinSpace, List.intercalate]
    | some ws => simp [uttText, specUttWords, hr, wordText_filter_eq]

/-- C1: for every utterance sequence (null entries, missing/non-array result
fields, null or empty words included), `getFullTranscript` equals the spec's
reference projection: per utterance join the non-null non-empty words with one
space, drop contribution-less utterances, join the rest with one space; an
empty utterance list yields the empty string.  Totality of the definition
models that the code never throws. -/
theorem c1_fullTranscript_spec (utts : List UttEntry) :
    getFullTranscript utts = fullTranscriptSpec utts := by
  have hf : uttText = fun u => joinSpace (specUttWords u) := funext uttText_eq_spec
  cases utts with
  | nil => rfl
  | cons u rest => simp [getFullTranscript, fullTranscriptSpec, hf]

/-! Section: Sentence segmentation (`getSentences`, `recognizer.tsx` lines 189-195) -/

/-- Terminal punctuation of the regex class `[.?!]`. -/
def isTerm (c : Char) : Bool :=
  c == '.' || c == '?' || c == '!'

/-- ASCII uppercase, the regex class `[A-Z]`. -/
def isUpper (c : Char) : Bool :=
  'A' ≤ c && c ≤ 'Z'

/-- Does the lookahead `\s*(?=[A-Z])` succeed on the remaining text?  With a
greedy `\s*`, the match succeeds exactly when the first non-whitespace
character exists and is uppercase. -/
def upperAfterWs (l : Str) : Bool :=
  match l.dropWhile isWs with
  | [] => false
  | c :: _ => isUpper c

lemma length_dropWhile_le (p : Char → Bool) (l : Str) :
    (l.dropWhile p).length ≤ l.length :=
  (List.dropWhile_sublist p).length_le

/-- Fuel-indexed scanner for the global replace
`text.replace(/([.?!])\s*(?=[A-Z])/g, "$1|")`: at every match the punctuation
mark is kept, the consumed whitespace is dropped, and a `'|'` marker is
inserted; scanning resumes at the (unconsumed) uppercase letter.  The fuel
only makes the recursion structural; it never runs out when it starts at the
length of the text. -/
def markBreaksF : Nat → Str → Str
  | _, [] => []
  | 0, l => l
  | fuel + 1, c :: rest =>
    if isTerm c && upperAfterWs rest then
      c :: '|' :: markBreaksF fuel (rest.dropWhile isWs)
    else
      c :: markBreaksF fuel rest

lemma markBreaksF_congr :
    ∀ (f₁ : Nat) (f₂ : Nat) (l : Str), l.length ≤ f₁ → l.length ≤ f₂ →
      markBreaksF f₁ l = markBreaksF f₂ l := by
  intro f₁
  induction f₁ with
  | zero =>
    intro f₂ l h₁ _
    have : l = [] := List.length_eq_zero.mp (Nat.le_zero.mp h₁)
    subst this
    cases f₂ <;> rfl
  | succ n ih =>
    intro f₂ l h₁ h₂
    cases l with
    | nil => cases f₂ <;> rfl
    | cons c rest =>
      cases f₂ with
      | zero => exact absurd h₂ (by simp)
      | succ m =>
        have hr : rest.length ≤ n := by simpa using h₁
        have hr' : rest.length ≤ m := by simpa using h₂
        have hd : (rest.dropWhile isWs).length ≤ rest.length :=
          length_dropWhile_le isWs rest
        simp only [markBreaksF]
        by_cases hb : (isTerm c && upperAfterWs rest) = true
        · rw [if_pos hb, if_pos hb,
            ih m (rest.dropWhile isWs) (le_trans hd hr) (le_trans hd hr')]
        · rw [if_neg hb, if_neg hb, ih m rest hr hr']

/-- The regex replace itself, started with enough fuel. -/
def markBreaks (l : Str) : Str := markBreaksF l.length l

lemma markBreaks_nil : markBreaks [] = [] := rfl

lemma markBreaks_cons (c : Char) (rest : Str) :
    markBreaks (c :: rest) =
      if isTerm c && upperAfterWs rest then
        c :: '|' :: markBreaks (rest.dropWhile isWs)
      else
        c :: markBreaks rest := by
  show markBreaksF (rest.length + 1) (c :: rest) = _
  have hd : (rest.dropWhile isWs).length ≤ rest.length :=
    length_dropWhile_le isWs rest
  simp only [markBreaksF]
  by_cases hb : (isTerm c && upperAfterWs rest) = true
  · rw [if_pos hb, if_pos hb,
      markBreaksF_congr rest.length (rest.dropWhile isWs).length _ hd le_rfl]
    rfl
  · rw [if_neg hb, if_neg hb]
    rfl

/-- Prepend a character to the first piece of a split (helper for a
`split`-style recursion). -/
def consHead (c : Char) : List Str → List Str
  | [] => [[c]]
  | s :: ss => (c :: s) :: ss

/-- JS `String.prototype.split("|")`: split at every literal `'|'`;
`"".split("|")` is `[""]`. -/
def splitPipe : Str → List Str
  | [] => [[]]
  | c :: rest =>
    if c = '|' then [] :: splitPipe rest
    else consHead c (splitPipe rest)

/-- Function `getSentences` (`recognizer.tsx` lines 189-195): mark the boundaries,
split on `'|'`, trim each piece, keep the pieces longer than 5 characters. -/
def getSentences (text : Str) : List Str :=
  ((splitPipe (markBreaks text)).map trim).filter (fun s => 5 < s.length)

/-- Fuel-indexed splitter following claim C3's words: cut the text exactly at
the positions where a terminal punctuation mark is followed, after optional
whitespace, by an uppercase letter (the whitespace at the cut belongs to
neither piece; each piece is trimmed afterwards anyway). -/
def specSplitF : Nat → Str → List Str
  | _, [] => [[]]
  | 0, l => [l]
  | fuel + 1, c :: rest =>
    if isTerm c && upperAfterWs rest then
      [c] :: specSplitF fuel (rest.dropWhile isWs)
    else
      consHead c (specSplitF fuel rest)

lemma specSplitF_congr :
    ∀ (f₁ : Nat) (f₂ : Nat) (l : Str), l.length ≤ f₁ → l.length ≤ f₂ →
      specSplitF f₁ l = specSplitF f₂ l := by
  intro f₁
  induction f₁ with
  | zero =>
    intro f₂ l h₁ _
    have : l = [] := List.length_eq_zero.mp (Nat.le_zero.mp h₁)
    subst this
    cases f₂ <;> rfl
  | succ n ih =>
    intro f₂ l h₁ h₂
    cases l with
    | nil => cases f₂ <;> rfl
    | cons c rest =>
      cases f₂ with
      | zero => exact absurd h₂ (by simp)
      | succ m =>
        have hr : rest.length ≤ n := by simpa using h₁
        have hr' : rest.length ≤ m := by simpa using h₂
        have hd : (rest.dropWhile isWs).length ≤ rest.length :=
          length_dropWhile_le isWs rest
        simp only [specSplitF]
        by_cases hb : (isTerm c && upperAfterWs rest) = true
        · rw [if_pos hb, if_pos hb,
            ih m (rest.dropWhile isWs) (le_trans hd hr) (le_trans hd hr')]
        · rw [if_neg hb, if_neg hb, ih m rest hr hr']

/-- The claim's boundary splitting, started with enough fuel. -/
def specSplit (l : Str) : List Str := specSplitF l.length l

lemma specSplit_nil : specSplit [] = [[]] := rfl

lemma specSplit_cons (c : Char) (rest : Str) :
    specSplit (c :: rest) =
      if isTerm c && upperAfterWs rest then
        [c] :: specSplit (rest.dropWhile isWs)
      else
        consHead c (specSplit rest) := by
  show specSplitF (rest.length + 1) (c :: rest) = _
  have hd : (rest.dropWhile isWs).length ≤ rest.length :=
    length_dropWhile_le isWs rest
  simp only [specSplitF]
  by_cases hb : (isTerm c && upperAfterWs rest) = true
  · rw [if_pos hb, if_pos hb,
      specSplitF_congr rest.length (rest.dropWhile isWs).length _ hd le_rfl]
    rfl
  · rw [if_neg hb, if_neg hb]
    rfl

/-- Claim C3's segmentation verbatim: split at the boundary positions, trim,
keep every segment of length 5 or more. -/
def getSentencesClaim (text : Str) : List Str :=
  ((specSplit text).map trim).filter (fun s => 5 ≤ s.length)

lemma splitPipe_markBreaks (text : Str) (hp : '|' ∉ text) :
    splitPipe (markBreaks text) = specSplit text := by
  have H : ∀ (n : Nat) (t : Str), t.length ≤ n → '|' ∉ t →
      splitPipe (markBreaks t) = specSplit t := by
    intro n
    induction n with
    | zero =>
      intro t h _
      have : t = [] := List.length_eq_zero.mp (Nat.le_zero.mp h)
      subst this
      rfl
    | succ n ih =>
      intro t h hpt
      cases t with
      | nil => rfl
      | cons c rest =>
        have hr : rest.length ≤ n := by simpa using h
        have hd : (rest.dropWhile isWs).length ≤ rest.length :=
          length_dropWhile_le isWs rest
        rw [markBreaks_cons, specSplit_cons]
        by_cases hb : (isTerm c && upperAfterWs rest) = true
        · have hc : ¬ (c = '|') := by
            intro hcp
            subst hcp
            simp [isTerm, upperAfterWs] at hb
          have hp' : '|' ∉ rest.dropWhile isWs := fun hm =>
            hpt (List.mem_cons_of_mem c ((List.dropWhile_sublist isWs).mem hm))
          rw [if_pos hb, if_pos hb]
          simp only [splitPipe, if_neg hc, if_pos rfl,
            ih (rest.dropWhile isWs) (le_trans hd hr) hp']
          rfl
        · have hc : ¬ (c = '|') := fun hcp =>
            hpt (hcp ▸ List.mem_cons_self c rest)
          have hp' : '|' ∉ rest := fun hm => hpt (List.mem_cons_of_mem c hm)
          rw [if_neg hb, if_neg hb]
          simp only [splitPipe, if_neg hc, ih rest hr hp']
  exact H text.length text le_rfl hp

/-- C3 counterexample: on `"Abcd. Hello there."` the trimmed segment
`"Abcd."` has length exactly 5; the code (`filter (5 < ·.length)`) discards
it, while the claim as stated keeps every segment of length 5 or more. -/
theorem c3_counterexample :
    getSentences ("Abcd. Hello there.".toList) ≠
      getSentencesClaim ("Abcd. Hello there.".toList) := by
  decide

/-- C3 amended: for every input without a literal `'|'` (which the code also
splits at, since the marker character is not escaped), `getSentences` splits
exactly at the positions where `.`, `?` or `!` is followed, after optional
whitespace, by an uppercase letter, trims each segment, and keeps precisely
the segments of length 6 or more (discarding those of length at most 5, not
only those shorter than 5). -/
theorem c3_getSentences_amended (text : Str) (hp : '|' ∉ text) :
    getSentences text = ((specSplit text).map trim).filter (fun s => 5 < s.length) := by
  unfold getSentences
  rw [splitPipe_markBreaks text hp]

/-- Witness for C3's amended theorem at a concrete input. -/
theorem c3_witness :
    '|' ∉ ("Hello world. Nice day today.".toList) ∧
      getSentences ("Hello world. Nice day today.".toList) =
        ((specSplit ("Hello world. Nice day today.".toList)).map trim).filter
          (fun s => 5 < s.length) :=
  ⟨by decide, c3_getSentences_amended _ (by decide)⟩

/-! Section: Fallback selection (`getImportantSentences`, `recognizer.tsx` 198-213) -/

/-- Function `getImportantSentences(sentences, count = 3)`; the JS default
argument `count = 3` is passed explicitly at every call site here.  If no more
than `count` sentences, return them all; otherwise start from the first
sentence, push the middle one when `count ≥ 2`, push the last one when
`count ≥ 3`.  JS indexing `sentences[i]` is modelled with `getD i []` (every
index used is in range on the paths taken). -/
def getImportantSentences (sentences : List Str) (count : Nat) : List Str :=
  if sentences.length ≤ count then sentences
  else
    [sentences.getD 0 []]
      ++ (if 2 ≤ count then [sentences.getD (sentences.length / 2) []] else [])
      ++ (if 3 ≤ count then [sentences.getD (sentences.length - 1) []] else [])

lemma getImportant_eq (l : List Str) (h : 3 < l.length) :
    getImportantSentences l 3 =
      [l.getD 0 [], l.getD (l.length / 2) [], l.getD (l.length - 1) []] := by
  rw [getImportantSentences, if_neg (by omega)]
  simp

/-- C5: for every sentence list of length `n > 3`, the fallback selection with
the default count 3 returns exactly
`[sentences[0], sentences[n / 2], sentences[n - 1]]` in that literal order. -/
theorem c5_fallback_first_middle_last (l : List Str) (h : 3 < l.length) :
    getImportantSentences l 3 =
      [l.getD 0 [], l.getD (l.length / 2) [], l.getD (l.length - 1) []] :=
  getImportant_eq l h

/-- Witness for C5 at a concrete 4-sentence list. -/
theorem c5_witness :
    3 < (["aaaaaa".toList, "bbbbbb".toList, "cccccc".toList, "dddddd".toList] : List Str).length ∧
      getImportantSentences ["aaaaaa".toList, "bbbbbb".toList, "cccccc".toList, "dddddd".toList] 3 =
        ["aaaaaa".toList, "cccccc".toList, "dddddd".toList] :=
  ⟨by decide, by
    rw [c5_fallback_first_middle_last _ (by decide)]
    decide⟩

/-! Section: Sentiment scoring (`generateSummary` scored path, `recognizer.tsx`
lines 252-268) -/

/-- JS truthiness of a possibly-absent number: `undefined`, `null` and `0` are
falsy (scores are modelled as rationals; `NaN`, also falsy, cannot arise from
the scoring expression). -/
def truthyQ (q : Option ℚ) : Bool :=
  match q with
  | none => false
  | some v => v != 0

/-- JS truthiness of a possibly-absent string: absent and empty are falsy. -/
def truthyStr (s : Option Str) : Bool :=
  match s with
  | none => false
  | some v => !v.isEmpty

/-- One raw entry of a classifier response array; every field may be absent
(`(result as any)?.score` etc.). -/
structure ClassifierRaw where
  score : Option ℚ
  confidence : Option ℚ
  label : Option Str
deriving DecidableEq, Repr

/-- The `interface SentimentResult` of `recognizer.tsx`. -/
structure SentimentResult where
  sentence : Str
  score : ℚ
  sentiment : Str
deriving DecidableEq, Repr

def neutralLabel : Str := "NEUTRAL".toList

/-- One per-sentence scoring call of the scored path.  `f s = none` models the
call throwing (caught per sentence, degrading to `0.5` / `"NEUTRAL"`);
`f s = some arr` models the classifier resolving with the array `arr`, whose
first element (if any) is read with optional chaining:
`score: result?.score || result?.confidence || 0.5`,
`sentiment: result?.label || 'NEUTRAL'`. -/
def scoreOne (f : Str → Option (List ClassifierRaw)) (s : Str) : SentimentResult :=
  match f s with
  | none => ⟨s, 1/2, neutralLabel⟩
  | some arr =>
    match arr.head? with
    | none => ⟨s, 1/2, neutralLabel⟩
    | some r =>
      ⟨s,
        if truthyQ r.score then r.score.getD 0
        else if truthyQ r.confidence then r.confidence.getD 0
        else 1/2,
        if truthyStr r.label then r.label.getD [] else neutralLabel⟩

/-- C10: in the scored path, the score assigned to a sentence is the result's
`score` field if truthy, else its `confidence` field if truthy, else `0.5`;
hence a well-formed result (no `confidence` field) whose `score` is exactly
`0` is silently coerced to `0.5`, and no sentence ever ranks with score `0`. -/
theorem c10_score_coercion :
    (∀ (f : Str → Option (List ClassifierRaw)) (s : Str) (arr : List ClassifierRaw)
        (r : ClassifierRaw), f s = some arr → arr.head? = some r →
        (scoreOne f s).score =
          (if truthyQ r.score then r.score.getD 0
           else if truthyQ r.confidence then r.confidence.getD 0
           else 1/2)) ∧
    (∀ (f : Str → Option (List ClassifierRaw)) (s : Str) (arr : List ClassifierRaw)
        (r : ClassifierRaw), f s = some arr → arr.head? = some r →
        r.score = some 0 → r.confidence = none → (scoreOne f s).score = 1/2) ∧
    (∀ (f : Str → Option (List ClassifierRaw)) (s : Str), (scoreOne f s).score ≠ 0) := by
  refine ⟨?_, ?_, ?_⟩
  · intro f s arr r hf hh
    simp [scoreOne, hf, hh]
  · intro f s arr r hf hh hsc hcf
    simp [scoreOne, hf, hh, hsc, hcf, truthyQ]
  · intro f s
    rw [scoreOne]
    cases hf : f s with
    | none => simp
    | some arr =>
      cases hh : arr.head? with
      | none => simp [hh]
      | some r =>
        simp only [hh]
        by_cases h1 : truthyQ r.score = true
        · cases hs : r.score with
          | none => rw [hs] at h1; simp [truthyQ] at h1
          | some v =>
            rw [hs] at h1
            simp only [truthyQ, bne_iff_ne] at h1
            simp [truthyQ, bne_iff_ne, h1, hs]
        · simp only [if_neg h1]
          by_cases h2 : truthyQ r.confidence = true
          · cases hc : r.confidence with
            | none => rw [hc] at h2; simp [truthyQ] at h2
            | some v =>
              rw [hc] at h2
              simp only [truthyQ, bne_iff_ne] at h2
              simp [truthyQ, bne_iff_ne, h2, hc]
          · simp only [if_neg h2]
            norm_num

/-- Witness for C10 at a concrete classifier result with `score = 0` and no
`confidence` field. -/
theorem c10_witness :
    (scoreOne (fun _ => some [⟨some 0, none, some ("POSITIVE".toList)⟩]) []).score = 1/2 ∧
      (scoreOne (fun _ => some [⟨some 0, none, some ("POSITIVE".toList)⟩]) []).score ≠ 0 :=
  ⟨c10_score_coercion.2.1 _ [] _ _ rfl rfl rfl rfl,
    c10_score_coercion.2.2 _ []⟩

/-! Section: Scored selection (`generateSummary` scored path, `recognizer.tsx`
lines 270-284).  JS `Array.prototype.sort` is stable (ES2019) and the
comparators `(a, b) => b.score - a.score` and
`(a, b) => sentences.indexOf(a) - sentences.indexOf(b)` are consistent, so
each sort is modelled by the stable `List.mergeSort`. -/

/-- Comparator `(a, b) => b.score - a.score` (sort by score descending). -/
def scoreDesc (a b : SentimentResult) : Bool :=
  decide (b.score ≤ a.score)

/-- Comparator `(a, b) => sentences.indexOf(a) - sentences.indexOf(b)`
(restore original document order). -/
def docOrder (sentences : List Str) (a b : Str) : Bool :=
  decide (sentences.indexOf a ≤ sentences.indexOf b)

/-- The slice `sortedResults.slice(0, 3).map(r => r.sentence)`: the top 3 sentences by
descending score. -/
def topOf (results : List SentimentResult) : List Str :=
  ((results.mergeSort scoreDesc).take 3).map SentimentResult.sentence

/-- The scored path's selection: take the top 3 by score; if the first
sentence is absent, overwrite the last (lowest-ranked) selected entry with it
(`topSentences[topSentences.length - 1] = sentences[0]`); sort the selection
back into document order. -/
def scoredSelect (sentences : List Str) (results : List SentimentResult) : List Str :=
  let top := topOf results
  let top2 :=
    if sentences.getD 0 [] ∈ top then top
    else top.set (top.length - 1) (sentences.getD 0 [])
  top2.mergeSort (docOrder sentences)

lemma topOf_length (results : List SentimentResult) (h : 3 ≤ results.length) :
    (topOf results).length = 3 := by
  simp [topOf, List.length_take, List.length_mergeSort]
  omega

lemma docOrder_trans (sentences : List Str) :
    ∀ a b c, docOrder sentences a b = true → docOrder sentences b c = true →
      docOrder sentences a c = true := by
  intro a b c hab hbc
  simp only [docOrder, decide_eq_true_eq] at *
  omega

lemma docOrder_total (sentences : List Str) :
    ∀ a b, (docOrder sentences a b || docOrder sentences b a) = true := by
  intro a b
  simp only [docOrder, Bool.or_eq_true, decide_eq_true_eq]
  omega

/-- C4: on the scored path with more than 3 sentences, whatever the scores,
the selection has exactly 3 entries; the transcript's first sentence is always
among them; they stand in their order of appearance in the original sentence
list; and when the first sentence was not in the top 3 by descending score the
selection is, up to that final reordering, the top 3 with its lowest-ranked
entry replaced by the first sentence. -/
theorem c4_scored_selection (sentences : List Str) (results : List SentimentResult)
    (hmap : results.map SentimentResult.sentence = sentences)
    (hlen : 3 < sentences.length) :
    (scoredSelect sentences results).length = 3 ∧
    sentences.getD 0 [] ∈ scoredSelect sentences results ∧
    (scoredSelect sentences results).Pairwise
      (fun a b => sentences.indexOf a ≤ sentences.indexOf b) ∧
    (sentences.getD 0 [] ∉ topOf results →
      (scoredSelect sentences results).Perm
        ((topOf results).set 2 (sentences.getD 0 []))) := by
  have hrlen : results.length = sentences.length := by
    rw [← hmap, List.length_map]
  have htop3 : (topOf results).length = 3 := topOf_length results (by omega)
  set s0 := sentences.getD 0 [] with hs0
  set top2 :=
    (if s0 ∈ topOf results then topOf results
     else (topOf results).set ((topOf results).length - 1) s0) with htop2
  have hsel : scoredSelect sentences results = top2.mergeSort (docOrder sentences) := rfl
  have htop2len : top2.length = 3 := by
    rw [htop2]
    by_cases hmem : s0 ∈ topOf results
    · rw [if_pos hmem, htop3]
    · rw [if_neg hmem, List.length_set, htop3]
  have htop2mem : s0 ∈ top2 := by
    rw [htop2]
    by_cases hmem : s0 ∈ topOf results
    · rwa [if_pos hmem]
    · rw [if_neg hmem]
      obtain ⟨x, y, z, hxyz⟩ := List.length_eq_three.mp htop3
      rw [hxyz]
      simp
  refine ⟨?_, ?_, ?_, ?_⟩
  · rw [hsel, List.length_mergeSort, htop2len]
  · rw [hsel]
    exact List.mem_mergeSort.mpr htop2mem
  · rw [hsel]
    have := List.sorted_mergeSort
      (docOrder_trans sentences) (docOrder_total sentences) top2
    exact this.imp (fun h => by
      simpa only [docOrder, decide_eq_true_eq] using h)
  · intro hnot
    rw [hsel, htop2, if_neg hnot, htop3]
    exact List.mergeSort_perm _ _

/-- Witness for C4 at four concrete sentences whose scores rank the first
sentence outside the top 3. -/
theorem c4_witness :
    (scoredSelect
        ["aaaaaa".toList, "bbbbbb".toList, "cccccc".toList, "dddddd".toList]
        [⟨"aaaaaa".toList, 1/10, neutralLabel⟩, ⟨"bbbbbb".toList, 9/10, neutralLabel⟩,
          ⟨"cccccc".toList, 8/10, neutralLabel⟩, ⟨"dddddd".toList, 7/10, neutralLabel⟩]).length = 3 ∧
    ("aaaaaa".toList : Str) ∈ scoredSelect
        ["aaaaaa".toList, "bbbbbb".toList, "cccccc".toList, "dddddd".toList]
        [⟨"aaaaaa".toList, 1/10, neutralLabel⟩, ⟨"bbbbbb".toList, 9/10, neutralLabel⟩,
          ⟨"cccccc".toList, 8/10, neutralLabel⟩, ⟨"dddddd".toList, 7/10, neutralLabel⟩] := by
  have h := c4_scored_selection
    ["aaaaaa".toList, "bbbbbb".toList, "cccccc".toList, "dddddd".toList]
    [⟨"aaaaaa".toList, 1/10, neutralLabel⟩, ⟨"bbbbbb".toList, 9/10, neutralLabel⟩,
      ⟨"cccccc".toList, 8/10, neutralLabel⟩, ⟨"dddddd".toList, 7/10, neutralLabel⟩]
    (by decide) (by decide)
  exact ⟨h.1, h.2.1⟩

/-! Section: `generateSummary` (`recognizer.tsx` lines 223-302).

The classifier environment abstracts the asynchronous collaborator:
`unavailable` models `loadTextClassifier()` resolving to `null` (its internal
catch), `throws` models the scoring stage throwing (caught by the inner
`try`, falling back), and `available f` models a loaded classifier whose call
on a sentence either throws (`f s = none`, caught per sentence) or resolves
with a response array.  The outer `try`/`finally` only toggles UI state and
cannot fail on these paths. -/

inductive ClassifierEnv where
  | unavailable
  | throws
  | available (f : Str → Option (List ClassifierRaw))

/-- What one `generateSummary` run commits: the summary text set by
`setSummary`, and whether the classifier-loading path was entered at all. -/
structure GSResult where
  summary : Str
  loadAttempted : Bool
deriving DecidableEq, Repr

def msgNoContent : Str := "No transcript content to summarize.".toList

def msgTooShort : Str := "The transcript is too short to summarize effectively.".toList

/-- Function `generateSummary` (`recognizer.tsx` lines 223-302), as a pure function of
the utterance state and the classifier environment. -/
def generateSummary (utts : List UttEntry) (env : ClassifierEnv) : GSResult :=
  let transcript := getFullTranscript utts
  if transcript.isEmpty || (trim transcript).isEmpty then ⟨msgNoContent, false⟩
  else
    let sentences := getSentences transcript
    if sentences.length = 0 then ⟨msgTooShort, false⟩
    else if sentences.length ≤ 3 then ⟨transcript, false⟩
    else
      match env with
      | .unavailable => ⟨joinSpace (getImportantSentences sentences 3), true⟩
      | .throws => ⟨joinSpace (getImportantSentences sentences 3), true⟩
      | .available f =>
        ⟨joinSpace (scoredSelect sentences (sentences.map (scoreOne f))), true⟩

lemma ws_not_term {c : Char} (h : isWs c = true) : isTerm c = false := by
  simp only [isWs, Bool.or_eq_true, beq_iff_eq] at h
  rcases h with ((((h | h) | h) | h) | h) | h <;> subst h <;> decide

lemma markBreaks_all_ws (t : Str) (h : ∀ c ∈ t, isWs c = true) :
    markBreaks t = t := by
  induction t with
  | nil => rfl
  | cons c rest ih =>
    have hc : isWs c = true := h c (List.mem_cons_self c rest)
    rw [markBreaks_cons, if_neg (by simp [ws_not_term hc]),
      ih (fun x hx => h x (List.mem_cons_of_mem c hx))]

lemma splitPipe_no_pipe (t : Str) (h : '|' ∉ t) : splitPipe t = [t] := by
  induction t with
  | nil => rfl
  | cons c rest ih =>
    have hc : ¬ (c = '|') := fun hcp => h (hcp ▸ List.mem_cons_self c rest)
    rw [splitPipe, if_neg hc, ih (fun hm => h (List.mem_cons_of_mem c hm))]
    rfl

lemma all_ws_of_trim_nil (t : Str) (h : trim t = []) : ∀ c ∈ t, isWs c = true := by
  have h1 : ((t.dropWhile isWs).reverse.dropWhile isWs) = [] := by
    have := congrArg List.reverse h
    simpa [trim] using this
  have h2 : ∀ x ∈ (t.dropWhile isWs).reverse, isWs x = true :=
    List.dropWhile_eq_nil_iff.mp h1
  have h3 : ∀ x ∈ t.dropWhile isWs, isWs x = true := fun x hx =>
    h2 x (List.mem_reverse.mpr hx)
  intro c hc
  rw [← List.takeWhile_append_dropWhile isWs t] at hc
  rcases List.mem_append.mp hc with hct | hcd
  · exact List.mem_takeWhile_imp hct
  · exact h3 c hcd

lemma getSentences_of_trim_nil (t : Str) (h : trim t = []) : getSentences t = [] := by
  have hws := all_ws_of_trim_nil t h
  have hp : '|' ∉ t := by
    intro hm
    have := hws '|' hm
    simp [isWs] at this
  rw [getSentences, markBreaks_all_ws t hws, splitPipe_no_pipe t hp]
  simp [h]

lemma cond_false_of_sentences_ne_nil (t : Str) (h : getSentences t ≠ []) :
    (t.isEmpty || (trim t).isEmpty) = false := by
  have htr : trim t ≠ [] := fun htr => h (getSentences_of_trim_nil t htr)
  have hte : t ≠ [] := by
    intro hte
    exact htr (by rw [hte]; rfl)
  simp [List.isEmpty_iff, hte, htr]

/-- C2 counterexample input: one utterance whose words are
`["Hi.", "Hello", "world."]`, so the transcript is `"Hi. Hello world."`,
segmentation discards the 3-character fragment `"Hi."`, and exactly one
sentence (`"Hello world."`) remains. -/
def uttsC2 : List UttEntry :=
  [some ⟨some [some ⟨some ("Hi.".toList)⟩, some ⟨some ("Hello".toList)⟩,
    some ⟨some ("world.".toList)⟩]⟩]

/-- C2 counterexample: on `uttsC2` the segmentation yields exactly one
sentence, yet the summary is the full transcript `"Hi. Hello world."`, which
is not that sentence list joined — the discarded fragment `"Hi."` is still in
the summary. -/
theorem c2_counterexample :
    1 ≤ (getSentences (getFullTranscript uttsC2)).length ∧
    (getSentences (getFullTranscript uttsC2)).length ≤ 3 ∧
    (generateSummary uttsC2 ClassifierEnv.unavailable).summary ≠
      joinSpace (getSentences (getFullTranscript uttsC2)) := by
  decide

/-- C2 amended: for every transcript whose segmentation yields between 1 and 3
sentences, `generateSummary` sets the summary to the full transcript verbatim
(not to the segmented sentences: fragments discarded by segmentation remain in
the summary), for every classifier environment, without entering the
classifier-loading path. -/
theorem c2_short_circuit_returns_transcript (utts : List UttEntry)
    (env : ClassifierEnv)
    (h1 : 1 ≤ (getSentences (getFullTranscript utts)).length)
    (h3 : (getSentences (getFullTranscript utts)).length ≤ 3) :
    generateSummary utts env = ⟨getFullTranscript utts, false⟩ := by
  have hne : getSentences (getFullTranscript utts) ≠ [] := by
    intro hnil
    rw [hnil] at h1
    simp at h1
  rw [generateSummary]
  rw [if_neg (by simp [cond_false_of_sentences_ne_nil _ hne]),
    if_neg (by simpa [List.length_eq_zero] using hne),
    if_pos h3]

/-- Witness for C2's amended theorem at a concrete one-sentence input. -/
theorem c2_witness :
    1 ≤ (getSentences (getFullTranscript uttsC2)).length ∧
    (getSentences (getFullTranscript uttsC2)).length ≤ 3 ∧
    generateSummary uttsC2 ClassifierEnv.throws = ⟨getFullTranscript uttsC2, false⟩ :=
  ⟨by decide, by decide,
    c2_short_circuit_returns_transcript uttsC2 ClassifierEnv.throws (by decide) (by decide)⟩

/-- C6: when the full transcript is empty or whitespace-only (in particular
for `utterances = []`), `generateSummary` sets the fixed no-content message
and returns without attempting to load or invoke the classifier; and when the
transcript is non-blank but segmentation yields zero sentences, it sets the
fixed too-short message, likewise without touching the classifier. -/
theorem c6_empty_and_too_short (utts : List UttEntry) :
    ((trim (getFullTranscript utts)).isEmpty = true →
      ∀ env, generateSummary utts env = ⟨msgNoContent, false⟩) ∧
    ((trim (getFullTranscript utts)).isEmpty = false →
      getSentences (getFullTranscript utts) = [] →
      ∀ env, generateSummary utts env = ⟨msgTooShort, false⟩) := by
  constructor
  · intro h env
    rw [generateSummary, if_pos (by simp [h])]
  · intro h hs env
    have hte : (getFullTranscript utts).isEmpty = false := by
      cases he : getFullTranscript utts with
      | nil =>
        rw [he] at h
        simp [trim] at h
      | cons c rest => simp
    rw [generateSummary, if_neg (by simp [h, hte]),
      if_pos (by simp [hs])]

/-- Witness for C6: the empty utterance list hits the no-content exit, and a
single 3-character word hits the too-short exit; neither touches the
classifier. -/
theorem c6_witness :
    generateSummary [] ClassifierEnv.unavailable = ⟨msgNoContent, false⟩ ∧
      generateSummary [some ⟨some [some ⟨some ("abc".toList)⟩]⟩] ClassifierEnv.throws =
        ⟨msgTooShort, false⟩ :=
  ⟨(c6_empty_and_too_short []).1 (by decide) ClassifierEnv.unavailable,
    (c6_empty_and_too_short [some ⟨some [some ⟨some ("abc".toList)⟩]⟩]).2
      (by decide) (by decide) ClassifierEnv.throws⟩

lemma joinSpace_three (a b c : Str) :
    joinSpace [a, b, c] = a ++ ' ' :: (b ++ ' ' :: c) := by
  simp [joinSpace, List.intercalate]

lemma getSentences_mem_long {t : Str} {s : Str} (h : s ∈ getSentences t) :
    5 < s.length := by
  have := List.of_mem_filter h
  simpa using this

/-- C7: with more than 3 segmented sentences, if the classifier fails to load
or the scoring stage throws, `generateSummary` still produces the non-empty
first/middle/last fallback summary (it does not throw: the embedding is
total); and each individual per-sentence scoring failure degrades to score
`0.5` and label `"NEUTRAL"` without shrinking the batch. -/
theorem c7_degradation (utts : List UttEntry)
    (h : 3 < (getSentences (getFullTranscript utts)).length) :
    (generateSummary utts ClassifierEnv.unavailable).summary =
      joinSpace (getImportantSentences (getSentences (getFullTranscript utts)) 3) ∧
    (generateSummary utts ClassifierEnv.throws).summary =
      joinSpace (getImportantSentences (getSentences (getFullTranscript utts)) 3) ∧
    (generateSummary utts ClassifierEnv.unavailable).summary ≠ [] ∧
    (∀ (f : Str → Option (List ClassifierRaw)) (x : Str), f x = none →
      scoreOne f x = ⟨x, 1/2, neutralLabel⟩) ∧
    (∀ (f : Str → Option (List ClassifierRaw)),
      ((getSentences (getFullTranscript utts)).map (scoreOne f)).length =
        (getSentences (getFullTranscript utts)).length) := by
  have hne : getSentences (getFullTranscript utts) ≠ [] := by
    intro hnil
    rw [hnil] at h
    simp at h
  have hcond := cond_false_of_sentences_ne_nil _ hne
  have hrun : ∀ env, generateSummary utts env =
      (match env with
       | ClassifierEnv.unavailable =>
         ⟨joinSpace (getImportantSentences (getSentences (getFullTranscript utts)) 3), true⟩
       | ClassifierEnv.throws =>
         ⟨joinSpace (getImportantSentences (getSentences (getFullTranscript utts)) 3), true⟩
       | ClassifierEnv.available f =>
         ⟨joinSpace (scoredSelect (getSentences (getFullTranscript utts))
           ((getSentences (getFullTranscript utts)).map (scoreOne f))), true⟩) := by
    intro env
    rw [generateSummary, if_neg (by simp [hcond]),
      if_neg (by simpa [List.length_eq_zero] using hne),
      if_neg (by omega)]
  have hs0 : (getSentences (getFullTranscript utts)).getD 0 [] ∈
      getSentences (getFullTranscript utts) := by
    cases hc : getSentences (getFullTranscript utts) with
    | nil => exact absurd hc hne
    | cons a rest => simp [List.getD]
  have hs0len : 5 < ((getSentences (getFullTranscript utts)).getD 0 []).length :=
    getSentences_mem_long hs0
  have hjoin : joinSpace (getImportantSentences (getSentences (getFullTranscript utts)) 3) ≠ [] := by
    rw [getImportant_eq _ h, joinSpace_three]
    cases hc : (getSentences (getFullTranscript utts)).getD 0 [] with
    | nil => rw [hc] at hs0len; simp at hs0len
    | cons a rest => simp
  refine ⟨?_, ?_, ?_, ?_, ?_⟩
  · rw [hrun ClassifierEnv.unavailable]
  · rw [hrun ClassifierEnv.throws]
  · rw [hrun ClassifierEnv.unavailable]
    exact hjoin
  · intro f x hf
    rw [scoreOne, hf]
  · intro f
    rw [List.length_map]

/-- C7 witness input: one utterance whose transcript segments into four
sentences, each longer than 5 characters. -/
def uttsFour : List UttEntry :=
  [some ⟨some [some ⟨some ("Alpha".toList)⟩, some ⟨some ("one.".toList)⟩,
    some ⟨some ("Bravo".toList)⟩, some ⟨some ("two.".toList)⟩,
    some ⟨some ("Candy".toList)⟩, some ⟨some ("three.".toList)⟩,
    some ⟨some ("Delta".toList)⟩, some ⟨some ("four.".toList)⟩]⟩]

/-- Witness for C7 at `uttsFour`, with a per-sentence call that throws. -/
theorem c7_witness :
    (generateSummary uttsFour ClassifierEnv.unavailable).summary =
      joinSpace (getImportantSentences (getSentences (getFullTranscript uttsFour)) 3) ∧
    (generateSummary uttsFour ClassifierEnv.unavailable).summary ≠ [] ∧
    scoreOne (fun _ => none) [] = ⟨[], 1/2, neutralLabel⟩ :=
  ⟨(c7_degradation uttsFour (by decide)).1,
    (c7_degradation uttsFour (by decide)).2.2.1,
    (c7_degradation uttsFour (by decide)).2.2.2.1 (fun _ => none) [] rfl⟩

/-! Section: Microphone routing (`microphone.tsx` lines 47, 142-161).

After the stream is established the first time, `micStreamRef` and
`audioStreamerRef` are both set and the mute effect's guards are satisfied, so
the effect body is: when unmuted, `unpipe(audioBucket); pipe(audioStreamer)`;
when muted, `unpipe(audioStreamer); pipe(audioBucket)`.  `toggleMic` flips
`muted` and the effect re-runs.  Crucially, the establishment path
(`startRecognitionStream`, first branch) creates the stream without piping it
anywhere, and `muted` starts (and stays) `true` until the first toggle. -/

/-- Pipe state of the established microphone stream: the mute flag and which
destinations the stream is currently piped to. -/
structure MicSt where
  muted : Bool
  toBucket : Bool
  toStreamer : Bool
deriving DecidableEq, Repr

/-- The state right after `startRecognitionStream` establishes the stream:
muted, piped to neither destination. -/
def micInit : MicSt := ⟨true, false, false⟩

/-- Pipe / unpipe actions on the microphone stream, in issue order. -/
inductive MicAct where
  | unpipeBucket
  | pipeBucket
  | unpipeStreamer
  | pipeStreamer
deriving DecidableEq, Repr

/-- The `[muted]` effect body (lines 142-157) for the established stream:
the new pipe state plus the actions it issues, in order. -/
def muteEffect (st : MicSt) : MicSt × List MicAct :=
  if st.muted = false then
    ({ st with toBucket := false, toStreamer := true },
      [MicAct.unpipeBucket, MicAct.pipeStreamer])
  else
    ({ st with toStreamer := false, toBucket := true },
      [MicAct.unpipeStreamer, MicAct.pipeBucket])

/-- Function `toggleMic`: flip `muted`, then the effect re-runs. -/
def toggleMic (st : MicSt) : MicSt :=
  (muteEffect { st with muted := !st.muted }).1

/-- The state after `n` mute/unmute toggles from the established state. -/
def runToggles : Nat → MicSt
  | 0 => micInit
  | n + 1 => toggleMic (runToggles n)

/-- Claim C9's routing invariant: muted means piped to the discard sink and
not to the recognizer's audio streamer, unmuted means the reverse. -/
def routingInv (st : MicSt) : Prop :=
  (st.muted = true → st.toBucket = true ∧ st.toStreamer = false) ∧
  (st.muted = false → st.toStreamer = true ∧ st.toBucket = false)

instance (st : MicSt) : Decidable (routingInv st) := by
  unfold routingInv
  infer_instance

/-- C9 counterexample: for the empty toggle sequence the invariant fails —
in the established state the stream is muted but piped to neither destination
(the establishment path never pipes to the discard sink), so frames produced
before the first toggle reach no sink at all. -/
theorem c9_counterexample : ¬ routingInv (runToggles 0) := by
  decide

/-- C9 amended: after at least one toggle the routing invariant holds (muted →
piped to the discard sink only, unmuted → piped to the audio streamer only);
in the initial established state, before any toggle, the stream is piped to
neither destination.  Each toggle's effect issues the unpipe of the old
destination strictly before the pipe of the new one. -/
theorem c9_routing_amended (n : Nat) (hn : 0 < n) :
    routingInv (runToggles n) ∧
    (runToggles 0).toBucket = false ∧ (runToggles 0).toStreamer = false ∧
    (∀ st : MicSt,
      (muteEffect st).2 =
        if st.muted = false then [MicAct.unpipeBucket, MicAct.pipeStreamer]
        else [MicAct.unpipeStreamer, MicAct.pipeBucket]) := by
  refine ⟨?_, rfl, rfl, ?_⟩
  · match n, hn with
    | n + 1, _ =>
      show routingInv (toggleMic (runToggles n))
      rcases hst : runToggles n with ⟨m, b, s⟩
      cases m <;> simp [toggleMic, muteEffect, routingInv]
  · intro st
    by_cases hm : st.muted = false
    · rw [if_pos hm]
      simp [muteEffect, hm]
    · rw [if_neg hm]
      simp [muteEffect, hm]

/-- Witness for C9's amended theorem after a single toggle. -/
theorem c9_witness :
    0 < 1 ∧ routingInv (runToggles 1) :=
  ⟨Nat.one_pos, (c9_routing_amended 1 Nat.one_pos).1⟩

/-! Section: Engine lifecycle (`loadModel`, `recognizer.tsx` lines 93-118).

`loadModel` first calls `loadedModel?.model.terminate()` (line 95) and only
then constructs the replacement engine (line 99); frames are only ever fed to
the recognizer of the currently live engine.  The spec's single-threaded
cooperative model (§5) serializes these operations, so the lifecycle is a
sequential command machine.  Each `load` terminates the live engine (if any)
and then creates a fresh one; each `feed` delivers a frame to the live engine
and is a no-op when none is loaded.  The emitted event trace is what the
temporal claim C8 is about. -/

inductive EngEvent where
  | create (id : Nat)
  | term (id : Nat)
  | deliver (id : Nat)
deriving DecidableEq, Repr

inductive EngCmd where
  | load
  | feed
deriving DecidableEq, Repr

structure EngSt where
  live : Option Nat
  next : Nat
  trace : List EngEvent
deriving DecidableEq, Repr

/-- One operation of the adapter: `load` terminates the previous engine
before constructing the new one (source order of lines 95 and 99);
`feed` delivers a frame to the live engine. -/
def engStep (st : EngSt) : EngCmd → EngSt
  | EngCmd.load =>
    match st.live with
    | some e =>
      ⟨some st.next, st.next + 1, st.trace ++ [EngEvent.term e, EngEvent.create st.next]⟩
    | none => ⟨some st.next, st.next + 1, st.trace ++ [EngEvent.create st.next]⟩
  | EngCmd.feed =>
    match st.live with
    | some e => ⟨st.live, st.next, st.trace ++ [EngEvent.deliver e]⟩
    | none => st

def engInit : EngSt := ⟨none, 0, []⟩

def engRun (cmds : List EngCmd) : EngSt := cmds.foldl engStep engInit

/-- The set of engines live after a trace: created and not yet terminated. -/
def aliveStep (acc : List Nat) : EngEvent → List Nat
  | EngEvent.create i => acc ++ [i]
  | EngEvent.term i => acc.erase i
  | EngEvent.deliver _ => acc

def aliveFrom (acc : List Nat) (tr : List EngEvent) : List Nat :=
  tr.foldl aliveStep acc

def alive (tr : List EngEvent) : List Nat := aliveFrom [] tr

def optList : Option Nat → List Nat
  | some e => [e]
  | none => []

lemma alive_append (t l : List EngEvent) :
    alive (t ++ l) = aliveFrom (alive t) l :=
  List.foldl_append aliveStep [] t l

lemma append_singleton_decomp {α : Type} (t t1 t2 : List α) (x ev : α)
    (h : t ++ [x] = t1 ++ ev :: t2) :
    (t1 = t ∧ ev = x ∧ t2 = []) ∨ ∃ t2', t2 = t2' ++ [x] ∧ t = t1 ++ ev :: t2' := by
  rcases List.eq_nil_or_concat t2 with h2 | ⟨t2', y, h2⟩
  · subst h2
    have hlen : t.length = t1.length := by
      have hl := congrArg List.length h
      simp at hl
      omega
    obtain ⟨h3, h4⟩ := List.append_inj h hlen
    have hx : x = ev := by simpa using h4
    exact Or.inl ⟨h3.symm, hx.symm, rfl⟩
  · subst h2
    have h' : t ++ [x] = (t1 ++ ev :: t2') ++ [y] := by
      rw [h, List.concat_eq_append]
      simp [List.append_assoc]
    have hlen : t.length = (t1 ++ ev :: t2').length := by
      have hl := congrArg List.length h'
      simp at hl ⊢
      omega
    obtain ⟨h3, h4⟩ := List.append_inj h' hlen
    have hx : x = y := by simpa using h4
    subst hx
    exact Or.inr ⟨t2', by rw [List.concat_eq_append], h3⟩

/-- The lifecycle invariant carried through the command machine. -/
structure EngInv (st : EngSt) : Prop where
  aliveEq : alive st.trace = optList st.live
  aliveBound : ∀ k, (alive (st.trace.take k)).length ≤ 1
  liveFresh : ∀ e, st.live = some e → e < st.next
  idBound : ∀ e, (EngEvent.create e ∈ st.trace ∨ EngEvent.term e ∈ st.trace ∨
    EngEvent.deliver e ∈ st.trace) → e < st.next
  liveNotTerm : ∀ e, st.live = some e → EngEvent.term e ∉ st.trace
  noDelAfter : ∀ t1 t2 e, st.trace = t1 ++ EngEvent.term e :: t2 →
    EngEvent.deliver e ∉ t2
  createClean : ∀ t1 t2 e, st.trace = t1 ++ EngEvent.create e :: t2 →
    alive t1 = []

lemma engInv_init : EngInv engInit := by
  refine ⟨rfl, ?_, ?_, ?_, ?_, ?_, ?_⟩
  · intro k
    simp [engInit, alive, aliveFrom]
  · intro e he
    simp [engInit] at he
  · intro e he
    simp [engInit] at he
  · intro e _
    simp [engInit]
  · intro t1 t2 e ht
    exact absurd ht.symm (by simp [engInit])
  · intro t1 t2 e ht
    exact absurd ht.symm (by simp [engInit])

lemma engInv_deliver (st : EngSt) (e : Nat) (inv : EngInv st)
    (hl : st.live = some e) :
    EngInv ⟨some e, st.next, st.trace ++ [EngEvent.deliver e]⟩ := by
  have hfresh : e < st.next := inv.liveFresh e hl
  have hnoterm : EngEvent.term e ∉ st.trace := inv.liveNotTerm e hl
  refine ⟨?_, ?_, ?_, ?_, ?_, ?_, ?_⟩
  · show alive (st.trace ++ [EngEvent.deliver e]) = optList (some e)
    rw [alive_append]
    show alive st.trace = _
    rw [inv.aliveEq, hl]
  · intro k
    show (alive ((st.trace ++ [EngEvent.deliver e]).take k)).length ≤ 1
    rw [List.take_append_eq_append_take]
    cases hk : k - st.trace.length with
    | zero => simpa using inv.aliveBound k
    | succ m =>
      have hpiece : (([EngEvent.deliver e] : List EngEvent).take (m + 1)) =
          [EngEvent.deliver e] := by simp
      rw [hpiece, alive_append]
      show ((alive (st.trace.take k))).length ≤ 1
      exact inv.aliveBound k
  · intro e' he'
    have h : e = e' := by injection he'
    subst h
    exact hfresh
  · intro e' he'
    rcases he' with h | h | h <;>
      rcases List.mem_append.mp h with h' | h'
    · exact inv.idBound e' (Or.inl h')
    · simp at h'
    · exact inv.idBound e' (Or.inr (Or.inl h'))
    · simp at h'
    · exact inv.idBound e' (Or.inr (Or.inr h'))
    · simp at h'
      exact h' ▸ hfresh
  · intro e' he' hmem
    have h : e = e' := by injection he'
    subst h
    rcases List.mem_append.mp hmem with h' | h'
    · exact hnoterm h'
    · simp at h'
  · intro t1 t2 e' ht
    have ht' : st.trace ++ [EngEvent.deliver e] = t1 ++ EngEvent.term e' :: t2 := ht
    rcases append_singleton_decomp _ _ _ _ _ ht' with ⟨_, hev, _⟩ | ⟨t2', ht2, htr⟩
    · exact absurd hev (by simp)
    · have hold : EngEvent.deliver e' ∉ t2' := inv.noDelAfter t1 t2' e' htr
      have hne : e' ≠ e := by
        intro hee
        apply hnoterm
        rw [hee] at htr
        rw [htr]
        exact List.mem_append.mpr (Or.inr (List.mem_cons_self _ _))
      rw [ht2]
      simp [List.mem_append, hold, hne]
  · intro t1 t2 e' ht
    have ht' : st.trace ++ [EngEvent.deliver e] = t1 ++ EngEvent.create e' :: t2 := ht
    rcases append_singleton_decomp _ _ _ _ _ ht' with ⟨_, hev, _⟩ | ⟨t2', _, htr⟩
    · exact absurd hev (by simp)
    · exact inv.createClean t1 t2' e' htr

lemma engInv_create_none (st : EngSt) (inv : EngInv st) (hl : st.live = none) :
    EngInv ⟨some st.next, st.next + 1, st.trace ++ [EngEvent.create st.next]⟩ := by
  have haliveNil : alive st.trace = [] := by
    rw [inv.aliveEq, hl]
    rfl
  refine ⟨?_, ?_, ?_, ?_, ?_, ?_, ?_⟩
  · show alive (st.trace ++ [EngEvent.create st.next]) = optList (some st.next)
    rw [alive_append]
    show aliveStep (alive st.trace) (EngEvent.create st.next) = _
    rw [haliveNil]
    rfl
  · intro k
    show (alive ((st.trace ++ [EngEvent.create st.next]).take k)).length ≤ 1
    rw [List.take_append_eq_append_take]
    cases hk : k - st.trace.length with
    | zero => simpa using inv.aliveBound k
    | succ m =>
      have htk : st.trace.take k = st.trace := by
        apply List.take_of_length_le
        omega
      have hpiece : (([EngEvent.create st.next] : List EngEvent).take (m + 1)) =
          [EngEvent.create st.next] := by simp
      rw [hpiece, htk, alive_append]
      show (aliveStep (alive st.trace) (EngEvent.create st.next)).length ≤ 1
      rw [haliveNil]
      simp [aliveStep]
  · intro e' he'
    have h : st.next = e' := by injection he'
    show _ < st.next + 1
    omega
  · intro e' he'
    rcases he' with h | h | h <;>
      rcases List.mem_append.mp h with h' | h'
    · exact Nat.lt_succ_of_lt (inv.idBound e' (Or.inl h'))
    · show _ < st.next + 1
      simp at h'
      omega
    · exact Nat.lt_succ_of_lt (inv.idBound e' (Or.inr (Or.inl h')))
    · simp at h'
    · exact Nat.lt_succ_of_lt (inv.idBound e' (Or.inr (Or.inr h')))
    · simp at h'
  · intro e' he' hmem
    have h : st.next = e' := by injection he'
    subst h
    rcases List.mem_append.mp hmem with h' | h'
    · have := inv.idBound st.next (Or.inr (Or.inl h'))
      omega
    · simp at h'
  · intro t1 t2 e' ht
    have ht' : st.trace ++ [EngEvent.create st.next] = t1 ++ EngEvent.term e' :: t2 := ht
    rcases append_singleton_decomp _ _ _ _ _ ht' with ⟨_, hev, _⟩ | ⟨t2', ht2, htr⟩
    · exact absurd hev (by simp)
    · have hold : EngEvent.deliver e' ∉ t2' := inv.noDelAfter t1 t2' e' htr
      rw [ht2]
      simp [List.mem_append, hold]
  · intro t1 t2 e' ht
    have ht' : st.trace ++ [EngEvent.create st.next] = t1 ++ EngEvent.create e' :: t2 := ht
    rcases append_singleton_decomp _ _ _ _ _ ht' with ⟨ht1, _, _⟩ | ⟨t2', _, htr⟩
    · rw [← ht1] at haliveNil
      exact haliveNil
    · exact inv.createClean t1 t2' e' htr

lemma engInv_swap (st : EngSt) (e : Nat) (inv : EngInv st) (hl : st.live = some e) :
    EngInv ⟨some st.next, st.next + 1,
      st.trace ++ [EngEvent.term e, EngEvent.create st.next]⟩ := by
  have hfresh : e < st.next := inv.liveFresh e hl
  have hnoterm : EngEvent.term e ∉ st.trace := inv.liveNotTerm e hl
  have haliveE : alive st.trace = [e] := by
    rw [inv.aliveEq, hl]
    rfl
  have hassoc : st.trace ++ [EngEvent.term e, EngEvent.create st.next] =
      (st.trace ++ [EngEvent.term e]) ++ [EngEvent.create st.next] := by
    simp
  have haliveT : alive (st.trace ++ [EngEvent.term e]) = [] := by
    rw [alive_append]
    show (alive st.trace).erase e = _
    rw [haliveE]
    simp
  refine ⟨?_, ?_, ?_, ?_, ?_, ?_, ?_⟩
  · show alive (st.trace ++ [EngEvent.term e, EngEvent.create st.next]) =
      optList (some st.next)
    rw [hassoc, alive_append, haliveT]
    rfl
  · intro k
    show (alive ((st.trace ++ [EngEvent.term e, EngEvent.create st.next]).take k)).length ≤ 1
    rw [List.take_append_eq_append_take]
    cases hk : k - st.trace.length with
    | zero => simpa using inv.aliveBound k
    | succ m =>
      have htk : st.trace.take k = st.trace := by
        apply List.take_of_length_le
        omega
      rw [htk]
      cases m with
      | zero =>
        have hpiece :
            (([EngEvent.term e, EngEvent.create st.next] : List EngEvent).take 1) =
              [EngEvent.term e] := by simp
        rw [hpiece, haliveT]
        simp
      | succ m' =>
        have hpiece :
            (([EngEvent.term e, EngEvent.create st.next] : List EngEvent).take (m' + 2)) =
              [EngEvent.term e, EngEvent.create st.next] := by
          simp [List.take_succ_cons]
        rw [hpiece, hassoc, alive_append, haliveT]
        show ((aliveFrom [] [EngEvent.create st.next])).length ≤ 1
        simp [aliveFrom, aliveStep]
  · intro e' he'
    have h : st.next = e' := by injection he'
    show _ < st.next + 1
    omega
  · intro e' he'
    rcases he' with h | h | h <;>
      rcases List.mem_append.mp h with h' | h'
    · exact Nat.lt_succ_of_lt (inv.idBound e' (Or.inl h'))
    · show _ < st.next + 1
      simp at h'
      omega
    · exact Nat.lt_succ_of_lt (inv.idBound e' (Or.inr (Or.inl h')))
    · show _ < st.next + 1
      simp at h'
      subst h'
      omega
    · exact Nat.lt_succ_of_lt (inv.idBound e' (Or.inr (Or.inr h')))
    · simp at h'
  · intro e' he' hmem
    have h : st.next = e' := by injection he'
    subst h
    rcases List.mem_append.mp hmem with h' | h'
    · have := inv.idBound st.next (Or.inr (Or.inl h'))
      omega
    · simp at h'
      omega
  · intro t1 t2 e' ht
    have ht' : (st.trace ++ [EngEvent.term e]) ++ [EngEvent.create st.next] =
        t1 ++ EngEvent.term e' :: t2 := by
      rw [← hassoc]
      exact ht
    rcases append_singleton_decomp _ _ _ _ _ ht' with ⟨_, hev, _⟩ | ⟨t2', ht2, hinner⟩
    · exact absurd hev (by simp)
    · rcases append_singleton_decomp _ _ _ _ _ hinner with
        ⟨ht1, hev, ht2'⟩ | ⟨t2'', ht2'', htr⟩
      · have hee : e' = e := by simpa using hev
        subst hee
        rw [ht2, ht2']
        simp
      · have hold : EngEvent.deliver e' ∉ t2'' := inv.noDelAfter t1 t2'' e' htr
        have hne : e' ≠ e := by
          intro hee
          apply hnoterm
          rw [hee] at htr
          rw [htr]
          exact List.mem_append.mpr (Or.inr (List.mem_cons_self _ _))
        rw [ht2, ht2'']
        simp [List.mem_append, hold, hne]
  · intro t1 t2 e' ht
    have ht' : (st.trace ++ [EngEvent.term e]) ++ [EngEvent.create st.next] =
        t1 ++ EngEvent.create e' :: t2 := by
      rw [← hassoc]
      exact ht
    rcases append_singleton_decomp _ _ _ _ _ ht' with ⟨ht1, _, _⟩ | ⟨t2', _, hinner⟩
    · rw [← ht1] at haliveT
      exact haliveT
    · rcases append_singleton_decomp _ _ _ _ _ hinner with
        ⟨_, hev, _⟩ | ⟨t2'', _, htr⟩
      · exact absurd hev (by simp)
      · exact inv.createClean t1 t2'' e' htr

lemma engInv_step (st : EngSt) (c : EngCmd) (inv : EngInv st) :
    EngInv (engStep st c) := by
  cases c with
  | feed =>
    cases hl : st.live with
    | none => simpa [engStep, hl] using inv
    | some e =>
      have hstep : engStep st EngCmd.feed =
          ⟨some e, st.next, st.trace ++ [EngEvent.deliver e]⟩ := by
        simp [engStep, hl]
      rw [hstep]
      exact engInv_deliver st e inv hl
  | load =>
    cases hl : st.live with
    | none =>
      have hstep : engStep st EngCmd.load =
          ⟨some st.next, st.next + 1, st.trace ++ [EngEvent.create st.next]⟩ := by
        simp [engStep, hl]
      rw [hstep]
      exact engInv_create_none st inv hl
    | some e =>
      have hstep : engStep st EngCmd.load =
          ⟨some st.next, st.next + 1,
            st.trace ++ [EngEvent.term e, EngEvent.create st.next]⟩ := by
        simp [engStep, hl]
      rw [hstep]
      exact engInv_swap st e inv hl
lemma engInv_foldl : ∀ (cmds : List EngCmd) (st : EngSt), EngInv st →
    EngInv (cmds.foldl engStep st) := by
  intro cmds
  induction cmds with
  | nil => intro st inv; exact inv
  | cons c rest ih => intro st inv; exact ih (engStep st c) (engInv_step st c inv)

lemma engInv_run (cmds : List EngCmd) : EngInv (engRun cmds) :=
  engInv_foldl cmds engInit engInv_init

/-- C8: for every sequence of `loadModel` / frame-feed operations, (a) at
every point of the emitted trace at most one engine is live (terminate of the
previous engine happens before the new engine starts receiving frames), (b) a
frame is never delivered to an engine after its terminate, and (c) at the
moment an engine is constructed no engine is live — in particular a call to
`loadModel` while an engine is loaded terminates it before constructing the
new one. -/
theorem c8_engine_lifecycle (cmds : List EngCmd) :
    (∀ k, (alive ((engRun cmds).trace.take k)).length ≤ 1) ∧
    (∀ t1 t2 e, (engRun cmds).trace = t1 ++ EngEvent.term e :: t2 →
      EngEvent.deliver e ∉ t2) ∧
    (∀ t1 t2 e, (engRun cmds).trace = t1 ++ EngEvent.create e :: t2 →
      alive t1 = []) :=
  ⟨(engInv_run cmds).aliveBound, (engInv_run cmds).noDelAfter,
    (engInv_run cmds).createClean⟩

/-- Witness for C8 on the command sequence load–load–feed, whose trace is
`[create 0, term 0, create 1, deliver 1]`: the first engine, once terminated,
never receives a frame, and at the second creation nothing is alive. -/
theorem c8_witness :
    EngEvent.deliver 0 ∉ [EngEvent.create 1, EngEvent.deliver 1] ∧
      alive [EngEvent.create 0, EngEvent.term 0] = [] ∧
      (alive ((engRun [EngCmd.load, EngCmd.load, EngCmd.feed]).trace.take 4)).length ≤ 1 :=
  ⟨(c8_engine_lifecycle [EngCmd.load, EngCmd.load, EngCmd.feed]).2.1
      [EngEvent.create 0] [EngEvent.create 1, EngEvent.deliver 1] 0 (by decide),
    (c8_engine_lifecycle [EngCmd.load, EngCmd.load, EngCmd.feed]).2.2
      [EngEvent.create 0, EngEvent.term 0] [EngEvent.deliver 1] 1 (by decide),
    (c8_engine_lifecycle [EngCmd.load, EngCmd.load, EngCmd.feed]).1 4⟩

end LocalTranscriber
